import Mathlib

/-!
# Verification of the option-valuation engine

A shallow embedding, over the real numbers, of the numeric engine in
`option-valuation-backend/app.py`: the closed-form Black-Scholes pricing
function `black_scholes`, the Manaster-Koehler initial guess
`manaster_koehler_initial_guess`, and the hybrid Newton-Raphson / bisection
implied-volatility solver `implied_volatility`.  The two Python loops are
embedded as fuel-based recursions (`newtonLoop`, `bisectLoop`); the Python
`return None` paths become `Option.none` / dedicated outcome constructors.
`scipy.stats.norm.cdf` and `norm.pdf` are embedded as the mathematical
standard normal CDF (an integral of the Gaussian density) and PDF.
-/

open MeasureTheory Set

open scoped Classical

noncomputable section

/-- The standard normal probability density function, the embedding of
`scipy.stats.norm.pdf`. -/
def normPdf (x : ℝ) : ℝ := (Real.sqrt (2 * Real.pi))⁻¹ * Real.exp (-x ^ 2 / 2)

/-- The standard normal cumulative distribution function, the embedding of
`scipy.stats.norm.cdf`. -/
def normCdf (x : ℝ) : ℝ := ∫ t in Iic x, normPdf t

/-- The record returned by `black_scholes` (the Python dict with keys
`optionPrice`, `delta`, `gamma`, `vega`, `theta`, `rho`). -/
structure PricingResult where
  optionPrice : ℝ
  delta : ℝ
  gamma : ℝ
  vega : ℝ
  theta : ℝ
  rho : ℝ

/-- Embedding of `black_scholes(S, K, T, r, sigma, option_type)` from
`app.py`.  Returns `none` exactly where the Python returns `None`: on the
guard `T <= 0 or S <= 0 or K <= 0 or sigma <= 0` and on an option type
other than `"call"` / `"put"`. -/
def black_scholes (S K T r sigma : ℝ) (option_type : String) :
    Option PricingResult :=
  if T ≤ 0 ∨ S ≤ 0 ∨ K ≤ 0 ∨ sigma ≤ 0 then none
  else
    let d1 := (Real.log (S / K) + (r + 0.5 * sigma ^ 2) * T) / (sigma * Real.sqrt T)
    let d2 := d1 - sigma * Real.sqrt T
    let priceDelta : Option (ℝ × ℝ) :=
      if option_type = "call" then
        some (S * normCdf d1 - K * Real.exp (-r * T) * normCdf d2, normCdf d1)
      else if option_type = "put" then
        some (K * Real.exp (-r * T) * normCdf (-d2) - S * normCdf (-d1), -normCdf (-d1))
      else none
    priceDelta.map fun pd =>
      let gamma := normPdf d1 / (S * sigma * Real.sqrt T)
      let vega := S * normPdf d1 * Real.sqrt T
      let theta := (-S * normPdf d1 * sigma) / (2 * Real.sqrt T) -
        r * K * Real.exp (-r * T) *
          (if option_type = "call" then normCdf d2 else normCdf (-d2))
      let rho := K * T * Real.exp (-r * T) *
        (if option_type = "call" then normCdf d2 else -normCdf (-d2))
      { optionPrice := pd.1
        delta := pd.2
        gamma := gamma
        vega := vega / 100
        theta := theta / 365
        rho := rho / 100 }

/-- Embedding of `manaster_koehler_initial_guess` from `app.py`. -/
def manaster_koehler_initial_guess (S K T r option_price : ℝ)
    (option_type : String) : ℝ :=
  let intrinsic_value := if option_type = "call" then max 0 (S - K) else max 0 (K - S)
  let time_value := option_price - intrinsic_value
  if time_value ≤ 0 then 0.0001
  else Real.sqrt (2 * |(Real.log (S / K) + r * T) / T|)

/-- `MAX_ITERATIONS` from `implied_volatility` in `app.py`. -/
def MAX_ITERATIONS : ℕ := 100

/-- `PRECISION` from `implied_volatility` in `app.py`. -/
def PRECISION : ℝ := 1e-5

/-- Outcome of the Newton-Raphson loop of `implied_volatility`: the Python
`return None` (pricing returned `None`), `return sigma` (converged), or
falling through to the bisection phase (loop exhausted, or `break` on
`vega == 0`). -/
inductive NewtonOut where
  | invalid : NewtonOut
  | converged : ℝ → NewtonOut
  | fallback : NewtonOut
  deriving DecidableEq

/-- The Newton-Raphson loop (`for i in range(MAX_ITERATIONS)`) of
`implied_volatility`, with the remaining iteration count as fuel. -/
def newtonLoop (S K T r option_price : ℝ) (option_type : String) :
    ℕ → ℝ → NewtonOut
  | 0, _ => .fallback
  | fuel + 1, sigma =>
    match black_scholes S K T r sigma option_type with
    | none => .invalid
    | some res =>
      if |res.optionPrice - option_price| < PRECISION then .converged sigma
      else if res.vega * 100 = 0 then .fallback
      else
        newtonLoop S K T r option_price option_type fuel
          (sigma - (res.optionPrice - option_price) / (res.vega * 100))

/-- Outcome of the bisection loop of `implied_volatility`: the Python
`return None` inside the loop (pricing returned `None`), `return sigma_mid`
(converged), or exhausting the loop (the final `return None`). -/
inductive BisectOut where
  | invalid : BisectOut
  | converged : ℝ → BisectOut
  | exhausted : BisectOut
  deriving DecidableEq

/-- The bisection loop of `implied_volatility`, with the remaining
iteration count as fuel. -/
def bisectLoop (S K T r option_price : ℝ) (option_type : String) :
    ℕ → ℝ → ℝ → BisectOut
  | 0, _, _ => .exhausted
  | fuel + 1, sigma_low, sigma_high =>
    let sigma_mid := (sigma_low + sigma_high) / 2
    match black_scholes S K T r sigma_mid option_type with
    | none => .invalid
    | some res =>
      if |res.optionPrice - option_price| < PRECISION then .converged sigma_mid
      else if res.optionPrice - option_price > 0 then
        bisectLoop S K T r option_price option_type fuel sigma_low sigma_mid
      else
        bisectLoop S K T r option_price option_type fuel sigma_mid sigma_high

/-- Embedding of `implied_volatility(S, K, T, r, option_price, option_type)`
from `app.py`: Manaster-Koehler initial guess, Newton-Raphson phase, then
the bisection fallback on `[1e-5, 5.0]`; `none` is the Python `None`. -/
def implied_volatility (S K T r option_price : ℝ) (option_type : String) :
    Option ℝ :=
  let sigma0 := manaster_koehler_initial_guess S K T r option_price option_type
  match newtonLoop S K T r option_price option_type MAX_ITERATIONS sigma0 with
  | .invalid => none
  | .converged sigma => some sigma
  | .fallback =>
    match bisectLoop S K T r option_price option_type MAX_ITERATIONS 1e-5 5.0 with
    | .invalid => none
    | .converged sigma => some sigma
    | .exhausted => none

/-- The option price computed by `black_scholes`, as a total function
(defaulting to `0` on the `None` branch); a convenient projection for
stating properties of the returned `optionPrice`. -/
def priceOf (S K T r sigma : ℝ) (option_type : String) : ℝ :=
  ((black_scholes S K T r sigma option_type).map PricingResult.optionPrice).getD 0

/-! ## Properties of the standard normal PDF and CDF -/

lemma normPdf_eq_gaussianPDFReal :
    normPdf = ProbabilityTheory.gaussianPDFReal 0 1 := by
  funext x
  simp [normPdf, ProbabilityTheory.gaussianPDFReal]

lemma normPdf_pos (x : ℝ) : 0 < normPdf x := by
  have h2π : (0:ℝ) < 2 * Real.pi := by positivity
  exact mul_pos (inv_pos.mpr (Real.sqrt_pos.mpr h2π)) (Real.exp_pos _)

lemma normPdf_neg (x : ℝ) : normPdf (-x) = normPdf x := by
  simp [normPdf]

lemma continuous_normPdf : Continuous normPdf := by
  unfold normPdf
  fun_prop

lemma integrable_normPdf : Integrable normPdf := by
  rw [normPdf_eq_gaussianPDFReal]
  exact ProbabilityTheory.integrable_gaussianPDFReal 0 1

lemma integral_normPdf : ∫ x, normPdf x = 1 := by
  rw [normPdf_eq_gaussianPDFReal]
  exact ProbabilityTheory.integral_gaussianPDFReal_eq_one 0 one_ne_zero

lemma normCdf_sub_normCdf (a b : ℝ) :
    normCdf b - normCdf a = ∫ x in a..b, normPdf x :=
  intervalIntegral.integral_Iic_sub_Iic integrable_normPdf.integrableOn integrable_normPdf.integrableOn

lemma normCdf_strictMono : StrictMono normCdf := by
  intro a b hab
  have h := normCdf_sub_normCdf a b
  have hpos : 0 < ∫ x in a..b, normPdf x :=
    intervalIntegral.intervalIntegral_pos_of_pos integrable_normPdf.intervalIntegrable
      normPdf_pos hab
  linarith

lemma normCdf_neg (x : ℝ) : normCdf (-x) = 1 - normCdf x := by
  have hrefl : (∫ t in Ioi x, normPdf (-t)) = ∫ t in Iic (-x), normPdf t :=
    integral_comp_neg_Ioi x normPdf
  simp only [normPdf_neg] at hrefl
  have hsplit : (∫ t in Iic x, normPdf t) + (∫ t in Ioi x, normPdf t) = ∫ t, normPdf t :=
    intervalIntegral.integral_Iic_add_Ioi integrable_normPdf.integrableOn integrable_normPdf.integrableOn
  rw [integral_normPdf] at hsplit
  unfold normCdf
  linarith

lemma hasDerivAt_normCdf (x : ℝ) : HasDerivAt normCdf (normPdf x) x := by
  have hrepr : normCdf = fun y => normCdf 0 + ∫ t in (0:ℝ)..y, normPdf t := by
    funext y
    have h := normCdf_sub_normCdf 0 y
    linarith
  rw [hrepr]
  have hftc :
      HasDerivAt (fun y => ∫ t in (0:ℝ)..y, normPdf t) (normPdf x) x :=
    intervalIntegral.integral_hasDerivAt_right
      integrable_normPdf.intervalIntegrable
      continuous_normPdf.stronglyMeasurable.stronglyMeasurableAtFilter
      continuous_normPdf.continuousAt
  exact hftc.const_add (normCdf 0)

/-! ## Structural lemmas about `black_scholes` -/

lemma black_scholes_eq_none_iff (S K T r sigma : ℝ) (option_type : String) :
    black_scholes S K T r sigma option_type = none ↔
      T ≤ 0 ∨ S ≤ 0 ∨ K ≤ 0 ∨ sigma ≤ 0 ∨
        (option_type ≠ "call" ∧ option_type ≠ "put") := by
  unfold black_scholes
  split_ifs with hguard hcall hput
  · exact iff_of_true rfl (by tauto)
  · simp [hguard, hcall]
  · simp [hguard, hcall, hput]
  · simp [hguard, hcall, hput]

lemma black_scholes_pos_of_isSome {S K T r sigma : ℝ} {option_type : String}
    {res : PricingResult}
    (h : black_scholes S K T r sigma option_type = some res) :
    0 < T ∧ 0 < S ∧ 0 < K ∧ 0 < sigma ∧
      (option_type = "call" ∨ option_type = "put") := by
  by_contra hcon
  have : black_scholes S K T r sigma option_type = none := by
    rw [black_scholes_eq_none_iff]
    push_neg at hcon
    by_cases hT : 0 < T
    · by_cases hS : 0 < S
      · by_cases hK : 0 < K
        · by_cases hsig : 0 < sigma
          · have hot := hcon hT hS hK hsig
            push_neg at hot
            exact Or.inr (Or.inr (Or.inr (Or.inr hot)))
          · exact Or.inr (Or.inr (Or.inr (Or.inl (not_lt.mp hsig))))
        · exact Or.inr (Or.inr (Or.inl (not_lt.mp hK)))
      · exact Or.inr (Or.inl (not_lt.mp hS))
    · exact Or.inl (not_lt.mp hT)
  rw [h] at this
  exact Option.some_ne_none res this

lemma black_scholes_call {S K T r sigma : ℝ}
    (hS : 0 < S) (hK : 0 < K) (hT : 0 < T) (hsig : 0 < sigma) :
    black_scholes S K T r sigma "call" =
      some { optionPrice :=
               S * normCdf ((Real.log (S / K) + (r + 0.5 * sigma ^ 2) * T) /
                   (sigma * Real.sqrt T)) -
                 K * Real.exp (-r * T) *
                   normCdf ((Real.log (S / K) + (r + 0.5 * sigma ^ 2) * T) /
                       (sigma * Real.sqrt T) - sigma * Real.sqrt T)
             delta :=
               normCdf ((Real.log (S / K) + (r + 0.5 * sigma ^ 2) * T) /
                   (sigma * Real.sqrt T))
             gamma :=
               normPdf ((Real.log (S / K) + (r + 0.5 * sigma ^ 2) * T) /
                   (sigma * Real.sqrt T)) / (S * sigma * Real.sqrt T)
             vega :=
               S * normPdf ((Real.log (S / K) + (r + 0.5 * sigma ^ 2) * T) /
                   (sigma * Real.sqrt T)) * Real.sqrt T / 100
             theta :=
               ((-S * normPdf ((Real.log (S / K) + (r + 0.5 * sigma ^ 2) * T) /
                     (sigma * Real.sqrt T)) * sigma) / (2 * Real.sqrt T) -
                   r * K * Real.exp (-r * T) *
                     normCdf ((Real.log (S / K) + (r + 0.5 * sigma ^ 2) * T) /
                         (sigma * Real.sqrt T) - sigma * Real.sqrt T)) / 365
             rho :=
               K * T * Real.exp (-r * T) *
                   normCdf ((Real.log (S / K) + (r + 0.5 * sigma ^ 2) * T) /
                       (sigma * Real.sqrt T) - sigma * Real.sqrt T) / 100 } := by
  have hguard : ¬(T ≤ 0 ∨ S ≤ 0 ∨ K ≤ 0 ∨ sigma ≤ 0) := by
    push_neg
    exact ⟨hT, hS, hK, hsig⟩
  simp [black_scholes, hguard]

lemma black_scholes_put {S K T r sigma : ℝ}
    (hS : 0 < S) (hK : 0 < K) (hT : 0 < T) (hsig : 0 < sigma) :
    black_scholes S K T r sigma "put" =
      some { optionPrice :=
               K * Real.exp (-r * T) *
                   normCdf (-((Real.log (S / K) + (r + 0.5 * sigma ^ 2) * T) /
                       (sigma * Real.sqrt T) - sigma * Real.sqrt T)) -
                 S * normCdf (-((Real.log (S / K) + (r + 0.5 * sigma ^ 2) * T) /
                     (sigma * Real.sqrt T)))
             delta :=
               -normCdf (-((Real.log (S / K) + (r + 0.5 * sigma ^ 2) * T) /
                   (sigma * Real.sqrt T)))
             gamma :=
               normPdf ((Real.log (S / K) + (r + 0.5 * sigma ^ 2) * T) /
                   (sigma * Real.sqrt T)) / (S * sigma * Real.sqrt T)
             vega :=
               S * normPdf ((Real.log (S / K) + (r + 0.5 * sigma ^ 2) * T) /
                   (sigma * Real.sqrt T)) * Real.sqrt T / 100
             theta :=
               ((-S * normPdf ((Real.log (S / K) + (r + 0.5 * sigma ^ 2) * T) /
                     (sigma * Real.sqrt T)) * sigma) / (2 * Real.sqrt T) -
                   r * K * Real.exp (-r * T) *
                     normCdf (-((Real.log (S / K) + (r + 0.5 * sigma ^ 2) * T) /
                         (sigma * Real.sqrt T) - sigma * Real.sqrt T))) / 365
             rho :=
               K * T * Real.exp (-r * T) *
                   -normCdf (-((Real.log (S / K) + (r + 0.5 * sigma ^ 2) * T) /
                       (sigma * Real.sqrt T) - sigma * Real.sqrt T)) / 100 } := by
  have hguard : ¬(T ≤ 0 ∨ S ≤ 0 ∨ K ≤ 0 ∨ sigma ≤ 0) := by
    push_neg
    exact ⟨hT, hS, hK, hsig⟩
  simp [black_scholes, hguard]

/-! ## Structural lemmas about the implied-volatility loops -/

lemma newtonLoop_converged {S K T r P : ℝ} {ot : String} :
    ∀ (fuel : ℕ) (sigma sig : ℝ),
      newtonLoop S K T r P ot fuel sigma = .converged sig →
      ∃ res, black_scholes S K T r sig ot = some res ∧
        |res.optionPrice - P| < PRECISION := by
  intro fuel
  induction fuel with
  | zero => intro sigma sig h; simp [newtonLoop] at h
  | succ n ih =>
    intro sigma sig h
    cases hbs : black_scholes S K T r sigma ot with
    | none =>
      simp only [newtonLoop, hbs] at h
      exact NewtonOut.noConfusion h
    | some res =>
      simp only [newtonLoop, hbs] at h
      by_cases hconv : |res.optionPrice - P| < PRECISION
      · rw [if_pos hconv] at h
        have hsig : sigma = sig := by
          injection h
        exact ⟨res, hsig ▸ hbs, hconv⟩
      · rw [if_neg hconv] at h
        by_cases hveg : res.vega * 100 = 0
        · rw [if_pos hveg] at h
          simp at h
        · rw [if_neg hveg] at h
          exact ih _ sig h

lemma bisectLoop_converged {S K T r P : ℝ} {ot : String} :
    ∀ (fuel : ℕ) (lo hi sig : ℝ),
      bisectLoop S K T r P ot fuel lo hi = .converged sig →
      ∃ res, black_scholes S K T r sig ot = some res ∧
        |res.optionPrice - P| < PRECISION := by
  intro fuel
  induction fuel with
  | zero => intro lo hi sig h; simp [bisectLoop] at h
  | succ n ih =>
    intro lo hi sig h
    cases hbs : black_scholes S K T r ((lo + hi) / 2) ot with
    | none =>
      simp only [bisectLoop, hbs] at h
      exact BisectOut.noConfusion h
    | some res =>
      simp only [bisectLoop, hbs] at h
      by_cases hconv : |res.optionPrice - P| < PRECISION
      · rw [if_pos hconv] at h
        have hsig : (lo + hi) / 2 = sig := by
          injection h
        exact ⟨res, hsig ▸ hbs, hconv⟩
      · rw [if_neg hconv] at h
        by_cases hgt : res.optionPrice - P > 0
        · rw [if_pos hgt] at h
          exact ih _ _ sig h
        · rw [if_neg hgt] at h
          exact ih _ _ sig h

lemma implied_volatility_some {S K T r P : ℝ} {ot : String} {sig : ℝ}
    (h : implied_volatility S K T r P ot = some sig) :
    ∃ res, black_scholes S K T r sig ot = some res ∧
      |res.optionPrice - P| < PRECISION := by
  cases hN : newtonLoop S K T r P ot MAX_ITERATIONS
      (manaster_koehler_initial_guess S K T r P ot) with
  | invalid =>
    simp only [implied_volatility, hN] at h
    exact Option.noConfusion h
  | converged s =>
    simp only [implied_volatility, hN, Option.some.injEq] at h
    exact h ▸ newtonLoop_converged _ _ s hN
  | fallback =>
    cases hB : bisectLoop S K T r P ot MAX_ITERATIONS 1e-5 5.0 with
    | invalid =>
      simp only [implied_volatility, hN, hB] at h
      exact Option.noConfusion h
    | converged s =>
      simp only [implied_volatility, hN, hB, Option.some.injEq] at h
      exact h ▸ bisectLoop_converged _ _ _ s hB
    | exhausted =>
      simp only [implied_volatility, hN, hB] at h
      exact Option.noConfusion h

lemma bisectLoop_ne_invalid {S K T r P : ℝ} {ot : String}
    (hS : 0 < S) (hK : 0 < K) (hT : 0 < T)
    (hot : ot = "call" ∨ ot = "put") :
    ∀ (fuel : ℕ) (lo hi : ℝ), 0 < lo → lo < hi →
      bisectLoop S K T r P ot fuel lo hi ≠ .invalid := by
  intro fuel
  induction fuel with
  | zero => intro lo hi _ _ h; simp [bisectLoop] at h
  | succ n ih =>
    intro lo hi hlo hlt h
    have hmidpos : 0 < (lo + hi) / 2 := by linarith
    cases hbs : black_scholes S K T r ((lo + hi) / 2) ot with
    | none =>
      rw [black_scholes_eq_none_iff] at hbs
      rcases hbs with hc | hc | hc | hc | hc
      · linarith
      · linarith
      · linarith
      · linarith
      · rcases hot with h1 | h1
        · exact hc.1 h1
        · exact hc.2 h1
    | some res =>
      simp only [bisectLoop, hbs] at h
      by_cases hconv : |res.optionPrice - P| < PRECISION
      · rw [if_pos hconv] at h
        simp at h
      · rw [if_neg hconv] at h
        have hlomid : lo < (lo + hi) / 2 := by linarith
        have hmidhi : (lo + hi) / 2 < hi := by linarith
        by_cases hgt : res.optionPrice - P > 0
        · rw [if_pos hgt] at h
          exact ih lo ((lo + hi) / 2) hlo hlomid h
        · rw [if_neg hgt] at h
          exact ih ((lo + hi) / 2) hi hmidpos hmidhi h

/-! ## Claim theorems -/

/-- C3: `black_scholes` returns `none` (the Python `None`, i.e. `Invalid`)
exactly when a precondition is violated: `T ≤ 0`, `S ≤ 0`, `K ≤ 0`,
`sigma ≤ 0`, or an option type other than `"call"` / `"put"`; conversely it
returns a computed result whenever all preconditions hold.  (The embedding
is a total function, so no exception is ever raised.) -/
theorem price_invalid_iff_precondition_violated
    (S K T r sigma : ℝ) (option_type : String) :
    black_scholes S K T r sigma option_type = none ↔
      T ≤ 0 ∨ S ≤ 0 ∨ K ≤ 0 ∨ sigma ≤ 0 ∨
        (option_type ≠ "call" ∧ option_type ≠ "put") :=
  black_scholes_eq_none_iff S K T r sigma option_type

/-- C1: for every `S > 0`, `K > 0`, `T > 0`, any real `r`, `sigma > 0`, the
price operation returns, for both styles, an `optionPrice` and `delta` equal
to the closed-form Black-Scholes values stated in the spec: with
`d1 = (ln(S/K) + (r + σ²/2)·T)/(σ·√T)` and `d2 = d1 − σ·√T`, a call yields
`price = S·Φ(d1) − K·e^(−rT)·Φ(d2)`, `delta = Φ(d1)`, and a put yields
`price = K·e^(−rT)·Φ(−d2) − S·Φ(−d1)`, `delta = −Φ(−d1)`. -/
theorem price_delta_closed_form (S K T r sigma : ℝ)
    (hS : 0 < S) (hK : 0 < K) (hT : 0 < T) (hsig : 0 < sigma) :
    ((black_scholes S K T r sigma "call").map fun res =>
        (res.optionPrice, res.delta)) =
      some (S * normCdf ((Real.log (S / K) + (r + sigma ^ 2 / 2) * T) /
              (sigma * Real.sqrt T)) -
            K * Real.exp (-(r * T)) *
              normCdf ((Real.log (S / K) + (r + sigma ^ 2 / 2) * T) /
                  (sigma * Real.sqrt T) - sigma * Real.sqrt T),
        normCdf ((Real.log (S / K) + (r + sigma ^ 2 / 2) * T) /
            (sigma * Real.sqrt T))) ∧
    ((black_scholes S K T r sigma "put").map fun res =>
        (res.optionPrice, res.delta)) =
      some (K * Real.exp (-(r * T)) *
              normCdf (-((Real.log (S / K) + (r + sigma ^ 2 / 2) * T) /
                  (sigma * Real.sqrt T) - sigma * Real.sqrt T)) -
            S * normCdf (-((Real.log (S / K) + (r + sigma ^ 2 / 2) * T) /
                (sigma * Real.sqrt T))),
        -normCdf (-((Real.log (S / K) + (r + sigma ^ 2 / 2) * T) /
            (sigma * Real.sqrt T)))) := by
  have h05 : (0.5 : ℝ) * sigma ^ 2 = sigma ^ 2 / 2 := by ring
  have hexp : Real.exp (-r * T) = Real.exp (-(r * T)) := by ring_nf
  rw [black_scholes_call hS hK hT hsig, black_scholes_put hS hK hT hsig]
  simp only [Option.map_some', h05, hexp]
  constructor <;> trivial

/-- C1 witness at `S = K = 100`, `T = 1`, `r = 1/20`, `σ = 1/5`. -/
theorem price_delta_closed_form_witness :
    (0:ℝ) < 100 ∧
    ((black_scholes 100 100 1 (1/20) (1/5) "call").map fun res =>
        (res.optionPrice, res.delta)) =
      some (100 * normCdf ((Real.log ((100:ℝ) / 100) + (1/20 + (1/5:ℝ) ^ 2 / 2) * 1) /
              (1/5 * Real.sqrt 1)) -
            100 * Real.exp (-((1/20:ℝ) * 1)) *
              normCdf ((Real.log ((100:ℝ) / 100) + (1/20 + (1/5:ℝ) ^ 2 / 2) * 1) /
                  (1/5 * Real.sqrt 1) - 1/5 * Real.sqrt 1),
        normCdf ((Real.log ((100:ℝ) / 100) + (1/20 + (1/5:ℝ) ^ 2 / 2) * 1) /
            (1/5 * Real.sqrt 1))) :=
  ⟨by norm_num,
    (price_delta_closed_form 100 100 1 (1/20) (1/5) (by norm_num) (by norm_num)
      (by norm_num) (by norm_num)).1⟩

/-- C4: for every valid input, the Greeks returned by the price operation
equal the spec's closed-form values with the stated scalings:
`gamma = φ(d1)/(S·σ·√T)`, `vega = S·φ(d1)·√T/100`,
`theta = (−S·φ(d1)·σ/(2√T) − r·K·e^(−rT)·Φ(d2 | −d2))/365`,
`rho = K·T·e^(−rT)·(Φ(d2) | −Φ(−d2))/100`. -/
theorem greeks_closed_form (S K T r sigma : ℝ)
    (hS : 0 < S) (hK : 0 < K) (hT : 0 < T) (hsig : 0 < sigma) :
    ((black_scholes S K T r sigma "call").map fun res =>
        (res.gamma, res.vega, res.theta, res.rho)) =
      some (normPdf ((Real.log (S / K) + (r + sigma ^ 2 / 2) * T) /
              (sigma * Real.sqrt T)) / (S * sigma * Real.sqrt T),
        S * normPdf ((Real.log (S / K) + (r + sigma ^ 2 / 2) * T) /
            (sigma * Real.sqrt T)) * Real.sqrt T / 100,
        (-(S * normPdf ((Real.log (S / K) + (r + sigma ^ 2 / 2) * T) /
              (sigma * Real.sqrt T)) * sigma / (2 * Real.sqrt T)) -
            r * K * Real.exp (-(r * T)) *
              normCdf ((Real.log (S / K) + (r + sigma ^ 2 / 2) * T) /
                  (sigma * Real.sqrt T) - sigma * Real.sqrt T)) / 365,
        K * T * Real.exp (-(r * T)) *
            normCdf ((Real.log (S / K) + (r + sigma ^ 2 / 2) * T) /
                (sigma * Real.sqrt T) - sigma * Real.sqrt T) / 100) ∧
    ((black_scholes S K T r sigma "put").map fun res =>
        (res.gamma, res.vega, res.theta, res.rho)) =
      some (normPdf ((Real.log (S / K) + (r + sigma ^ 2 / 2) * T) /
              (sigma * Real.sqrt T)) / (S * sigma * Real.sqrt T),
        S * normPdf ((Real.log (S / K) + (r + sigma ^ 2 / 2) * T) /
            (sigma * Real.sqrt T)) * Real.sqrt T / 100,
        (-(S * normPdf ((Real.log (S / K) + (r + sigma ^ 2 / 2) * T) /
              (sigma * Real.sqrt T)) * sigma / (2 * Real.sqrt T)) -
            r * K * Real.exp (-(r * T)) *
              normCdf (-((Real.log (S / K) + (r + sigma ^ 2 / 2) * T) /
                  (sigma * Real.sqrt T) - sigma * Real.sqrt T))) / 365,
        K * T * Real.exp (-(r * T)) *
            -normCdf (-((Real.log (S / K) + (r + sigma ^ 2 / 2) * T) /
                (sigma * Real.sqrt T) - sigma * Real.sqrt T)) / 100) := by
  have h05 : (0.5 : ℝ) * sigma ^ 2 = sigma ^ 2 / 2 := by ring
  have hexp : Real.exp (-r * T) = Real.exp (-(r * T)) := by ring_nf
  have hneg : ∀ x : ℝ, -x * sigma / (2 * Real.sqrt T) =
      -(x * sigma / (2 * Real.sqrt T)) := fun x => by ring
  rw [black_scholes_call hS hK hT hsig, black_scholes_put hS hK hT hsig]
  simp only [Option.map_some', h05, hexp]
  constructor
  · refine congrArg some ?_
    refine Prod.ext rfl (Prod.ext rfl (Prod.ext ?_ rfl))
    simp only []
    rw [show -S * normPdf ((Real.log (S / K) + (r + sigma ^ 2 / 2) * T) /
        (sigma * Real.sqrt T)) * sigma / (2 * Real.sqrt T) =
      -(S * normPdf ((Real.log (S / K) + (r + sigma ^ 2 / 2) * T) /
        (sigma * Real.sqrt T)) * sigma / (2 * Real.sqrt T)) from by ring]
  · refine congrArg some ?_
    refine Prod.ext rfl (Prod.ext rfl (Prod.ext ?_ rfl))
    simp only []
    rw [show -S * normPdf ((Real.log (S / K) + (r + sigma ^ 2 / 2) * T) /
        (sigma * Real.sqrt T)) * sigma / (2 * Real.sqrt T) =
      -(S * normPdf ((Real.log (S / K) + (r + sigma ^ 2 / 2) * T) /
        (sigma * Real.sqrt T)) * sigma / (2 * Real.sqrt T)) from by ring]

/-- C2: whenever `implied_volatility` returns a volatility as success, the
model price computed by `black_scholes` at that volatility differs from the
market price by strictly less than `1e-5`; a value outside tolerance is
never returned as success. -/
theorem impliedVol_success_within_tolerance (S K T r marketPrice : ℝ)
    (option_type : String) :
    (implied_volatility S K T r marketPrice option_type).elim True
      (fun sig => ∃ res, black_scholes S K T r sig option_type = some res ∧
        |res.optionPrice - marketPrice| < 1e-5) := by
  cases hiv : implied_volatility S K T r marketPrice option_type with
  | none => trivial
  | some sig =>
    simp only [Option.elim]
    have h := implied_volatility_some hiv
    simpa [PRECISION] using h

/-- C8: whenever `implied_volatility` returns a volatility as success, that
volatility is strictly positive — for every input, including degenerate
ones where the tiny initial guess `0.0001` is used. -/
theorem impliedVol_success_positive (S K T r marketPrice : ℝ)
    (option_type : String) :
    (implied_volatility S K T r marketPrice option_type).elim True
      (fun sig => 0 < sig) := by
  cases hiv : implied_volatility S K T r marketPrice option_type with
  | none => trivial
  | some sig =>
    simp only [Option.elim]
    obtain ⟨res, hbs, -⟩ := implied_volatility_some hiv
    exact (black_scholes_pos_of_isSome hbs).2.2.2.1

/-- C10: with `S > 0`, `K > 0`, `T > 0` and a valid style, the pricing call
inside the bisection loop never returns `Invalid` (every midpoint stays
strictly inside the bracket `[1e-5, 5.0]`, hence is positive), so the
`NotConverged`-on-`Invalid` branch of the bisection phase is unreachable —
for any number of remaining iterations. -/
theorem bisection_never_invalid (S K T r marketPrice : ℝ)
    (option_type : String) (hS : 0 < S) (hK : 0 < K) (hT : 0 < T)
    (hot : option_type = "call" ∨ option_type = "put") (fuel : ℕ) :
    bisectLoop S K T r marketPrice option_type fuel 1e-5 5.0 ≠ .invalid :=
  bisectLoop_ne_invalid hS hK hT hot fuel 1e-5 5.0 (by norm_num) (by norm_num)

/-- C10 witness at `S = K = 100`, `T = 1`, `r = 1/20`,
`marketPrice = 10`, style `"call"`, with the full iteration budget. -/
theorem bisection_never_invalid_witness :
    (0:ℝ) < 100 ∧ (0:ℝ) < 1 ∧
      (("call":String) = "call" ∨ ("call":String) = "put") ∧
      bisectLoop 100 100 1 (1/20) 10 "call" MAX_ITERATIONS 1e-5 5.0 ≠
        .invalid :=
  ⟨by norm_num, by norm_num, Or.inl rfl,
    bisection_never_invalid 100 100 1 (1/20) 10 "call" (by norm_num)
      (by norm_num) (by norm_num) (Or.inl rfl) MAX_ITERATIONS⟩

lemma mk_guess_eq_zero {S K T r marketPrice : ℝ} {option_type : String}
    (htv : 0 < marketPrice -
      (if option_type = "call" then max 0 (S - K) else max 0 (K - S)))
    (hlog : Real.log (S / K) + r * T = 0) :
    manaster_koehler_initial_guess S K T r marketPrice option_type = 0 := by
  have hne : ¬(marketPrice -
      (if option_type = "call" then max 0 (S - K) else max 0 (K - S)) ≤ 0) := by
    linarith
  simp only [manaster_koehler_initial_guess, if_neg hne, hlog, zero_div,
    abs_zero, mul_zero, Real.sqrt_zero]

lemma newtonLoop_zero_invalid (S K T r marketPrice : ℝ)
    (option_type : String) (fuel : ℕ) :
    newtonLoop S K T r marketPrice option_type (fuel + 1) 0 = .invalid := by
  have hbs0 : black_scholes S K T r 0 option_type = none := by
    rw [black_scholes_eq_none_iff]
    exact Or.inr (Or.inr (Or.inr (Or.inl le_rfl)))
  simp only [newtonLoop, hbs0]

lemma implied_volatility_none_of_zero_guess {S K T r marketPrice : ℝ}
    {option_type : String}
    (hguess : manaster_koehler_initial_guess S K T r marketPrice option_type = 0) :
    implied_volatility S K T r marketPrice option_type = none := by
  have h99 : newtonLoop S K T r marketPrice option_type MAX_ITERATIONS 0 =
      .invalid := by
    have h100 : MAX_ITERATIONS = 99 + 1 := by norm_num [MAX_ITERATIONS]
    rw [h100]
    exact newtonLoop_zero_invalid S K T r marketPrice option_type 99
  simp only [implied_volatility, hguess, h99]

/-- C9: for inputs with `S, K, T > 0`, positive time value
(`marketPrice` − intrinsic > 0) and `ln(S/K) + r·T = 0` (e.g. at the money
with `r = 0`), the Manaster-Koehler initial guess is exactly `0`; the first
pricing call of the Newton phase then returns `Invalid` (no Newton update is
performed), and `implied_volatility` returns `NotConverged` (`none`)
immediately, without entering the bisection phase. -/
theorem atm_degenerate_guess_invalid (S K T r marketPrice : ℝ)
    (option_type : String) (hS : 0 < S) (hK : 0 < K) (hT : 0 < T)
    (htv : 0 < marketPrice -
      (if option_type = "call" then max 0 (S - K) else max 0 (K - S)))
    (hlog : Real.log (S / K) + r * T = 0) :
    manaster_koehler_initial_guess S K T r marketPrice option_type = 0 ∧
    (∀ fuel : ℕ, newtonLoop S K T r marketPrice option_type (fuel + 1)
        (manaster_koehler_initial_guess S K T r marketPrice option_type) =
      .invalid) ∧
    implied_volatility S K T r marketPrice option_type = none := by
  have hguess := mk_guess_eq_zero htv hlog
  refine ⟨hguess, ?_, implied_volatility_none_of_zero_guess hguess⟩
  intro fuel
  rw [hguess]
  exact newtonLoop_zero_invalid S K T r marketPrice option_type fuel

/-- C9 witness at `S = K = 100`, `T = 1`, `r = 0`, `marketPrice = 5`,
style `"call"` (time value `5 > 0`, `ln(S/K) + r·T = 0`). -/
theorem atm_degenerate_guess_invalid_witness :
    ((0:ℝ) < 100 ∧ (0:ℝ) < 1 ∧
      (0:ℝ) < 5 - (if ("call":String) = "call" then max 0 ((100:ℝ) - 100)
        else max 0 ((100:ℝ) - 100)) ∧
      Real.log ((100:ℝ) / 100) + 0 * 1 = 0) ∧
    implied_volatility 100 100 1 0 5 "call" = none := by
  have hlog : Real.log ((100:ℝ) / 100) + 0 * 1 = 0 := by
    rw [show (100:ℝ) / 100 = 1 by norm_num, Real.log_one]
    ring
  have htv : (0:ℝ) < 5 - (if ("call":String) = "call" then max 0 ((100:ℝ) - 100)
      else max 0 ((100:ℝ) - 100)) := by
    rw [if_pos rfl]
    norm_num
  exact ⟨⟨by norm_num, by norm_num, htv, hlog⟩,
    (atm_degenerate_guess_invalid 100 100 1 0 5 "call" (by norm_num)
      (by norm_num) (by norm_num) htv hlog).2.2⟩

/-- C5 counterexample: at `S = K = 100`, `T = 1`, `r = 0`, `σ* = 1/5`,
style `"call"`, pricing succeeds, but feeding the returned `optionPrice`
back into `implied_volatility` yields `none` (`NotConverged`) — the
Manaster-Koehler guess is exactly `0` there and the very first pricing call
of the Newton phase is `Invalid` — so the round-trip does not recover a
volatility near `σ*`. -/
theorem roundtrip_fails_at_the_money :
    Option.map (fun res => implied_volatility 100 100 1 0 res.optionPrice "call")
        (black_scholes 100 100 1 0 (1/5) "call") = some none := by
  rw [black_scholes_call (by norm_num : (0:ℝ) < 100) (by norm_num : (0:ℝ) < 100)
    (by norm_num : (0:ℝ) < 1) (by norm_num : (0:ℝ) < 1/5)]
  simp only [Option.map_some']
  refine congrArg some ?_
  apply implied_volatility_none_of_zero_guess
  apply mk_guess_eq_zero
  · rw [if_pos rfl]
    have hmono : normCdf ((Real.log ((100:ℝ) / 100) + (0 + 0.5 * (1/5) ^ 2) * 1) /
          (1/5 * Real.sqrt 1) - 1/5 * Real.sqrt 1) <
        normCdf ((Real.log ((100:ℝ) / 100) + (0 + 0.5 * (1/5) ^ 2) * 1) /
          (1/5 * Real.sqrt 1)) := by
      apply normCdf_strictMono
      have h01 : (0:ℝ) < 1/5 * Real.sqrt 1 := by
        rw [Real.sqrt_one]
        norm_num
      linarith
    have hexp : Real.exp (-(0:ℝ) * 1) = 1 := by simp
    rw [hexp]
    have hmax : max (0:ℝ) (100 - 100) = 0 := by norm_num
    rw [hmax]
    linarith
  · rw [show (100:ℝ) / 100 = 1 by norm_num, Real.log_one]
    ring

/-- The classical Black-Scholes identity
`K·e^(−rT)·φ(d2) = S·φ(d1)` used to compute vega. -/
lemma bs_pdf_identity {S K T : ℝ} (r : ℝ) (hS : 0 < S) (hK : 0 < K) (hT : 0 < T)
    {sigma : ℝ} (hsig : 0 < sigma) :
    K * Real.exp (-r * T) *
        normPdf ((Real.log (S / K) + (r + 0.5 * sigma ^ 2) * T) /
            (sigma * Real.sqrt T) - sigma * Real.sqrt T) =
      S * normPdf ((Real.log (S / K) + (r + 0.5 * sigma ^ 2) * T) /
          (sigma * Real.sqrt T)) := by
  set sT := Real.sqrt T with hsTdef
  have hsT : 0 < sT := Real.sqrt_pos.mpr hT
  have hs2 : sT ^ 2 = T := Real.sq_sqrt hT.le
  set d1v := (Real.log (S / K) + (r + 0.5 * sigma ^ 2) * T) / (sigma * sT)
    with hd1def
  have hd1s : d1v * (sigma * sT) =
      Real.log S - Real.log K + (r + 0.5 * sigma ^ 2) * T := by
    have h := div_mul_cancel₀
      (Real.log (S / K) + (r + 0.5 * sigma ^ 2) * T)
      ((mul_pos hsig hsT).ne' : sigma * sT ≠ 0)
    rw [hd1def, h, Real.log_div hS.ne' hK.ne']
  have hdiff : d1v ^ 2 - (d1v - sigma * sT) ^ 2 =
      2 * (Real.log S - Real.log K + r * T) := by
    have hexpand : d1v ^ 2 - (d1v - sigma * sT) ^ 2 =
        2 * (d1v * (sigma * sT)) - (sigma * sT) ^ 2 := by ring
    have hss : (sigma * sT) ^ 2 = sigma ^ 2 * T := by
      rw [mul_pow, hs2]
    rw [hexpand, hd1s, hss]
    ring
  have hexpid : Real.exp (-r * T) * Real.exp (-(d1v - sigma * sT) ^ 2 / 2) * K =
      Real.exp (-d1v ^ 2 / 2) * S := by
    nth_rewrite 1 [← Real.exp_log hK]
    nth_rewrite 1 [← Real.exp_log hS]
    rw [← Real.exp_add, ← Real.exp_add, ← Real.exp_add, Real.exp_eq_exp]
    linarith
  unfold normPdf
  linear_combination (Real.sqrt (2 * Real.pi))⁻¹ * hexpid

/-- The call-price formula, as a function of volatility, has derivative
(unscaled vega) `S·φ(d1)·√T` at every positive volatility. -/
lemma callPrice_hasDerivAt {S K T r : ℝ} (hS : 0 < S) (hK : 0 < K)
    (hT : 0 < T) {sigma : ℝ} (hsig : 0 < sigma) :
    HasDerivAt (fun x : ℝ =>
        S * normCdf ((Real.log (S / K) + (r + 0.5 * x ^ 2) * T) /
            (x * Real.sqrt T)) -
          K * Real.exp (-r * T) *
            normCdf ((Real.log (S / K) + (r + 0.5 * x ^ 2) * T) /
                (x * Real.sqrt T) - x * Real.sqrt T))
      (S * normPdf ((Real.log (S / K) + (r + 0.5 * sigma ^ 2) * T) /
          (sigma * Real.sqrt T)) * Real.sqrt T) sigma := by
  set sT := Real.sqrt T with hsTdef
  have hsT : 0 < sT := Real.sqrt_pos.mpr hT
  have hdenne : sigma * sT ≠ 0 := (mul_pos hsig hsT).ne'
  have hp : HasDerivAt (fun x : ℝ => x ^ 2) (2 * sigma) sigma := by
    simpa using hasDerivAt_pow 2 sigma
  have hnum : HasDerivAt
      (fun x : ℝ => Real.log (S / K) + (r + 0.5 * x ^ 2) * T)
      (0.5 * (2 * sigma) * T) sigma :=
    (((hp.const_mul 0.5).const_add r).mul_const T).const_add (Real.log (S / K))
  have hden : HasDerivAt (fun x : ℝ => x * sT) sT sigma := by
    simpa using (hasDerivAt_id sigma).mul_const sT
  obtain ⟨Dd, hD1⟩ : ∃ d, HasDerivAt
      (fun x : ℝ => (Real.log (S / K) + (r + 0.5 * x ^ 2) * T) / (x * sT))
      d sigma := ⟨_, hnum.div hden hdenne⟩
  have hD2 : HasDerivAt
      (fun x : ℝ => (Real.log (S / K) + (r + 0.5 * x ^ 2) * T) / (x * sT) -
        x * sT) (Dd - sT) sigma := hD1.sub hden
  have hC1 : HasDerivAt
      (fun x : ℝ => normCdf ((Real.log (S / K) + (r + 0.5 * x ^ 2) * T) /
        (x * sT)))
      (normPdf ((Real.log (S / K) + (r + 0.5 * sigma ^ 2) * T) /
        (sigma * sT)) * Dd) sigma := by
    have h := (hasDerivAt_normCdf
      ((Real.log (S / K) + (r + 0.5 * sigma ^ 2) * T) / (sigma * sT))).comp
      sigma hD1
    simpa [Function.comp] using h
  have hC2 : HasDerivAt
      (fun x : ℝ => normCdf ((Real.log (S / K) + (r + 0.5 * x ^ 2) * T) /
        (x * sT) - x * sT))
      (normPdf ((Real.log (S / K) + (r + 0.5 * sigma ^ 2) * T) /
        (sigma * sT) - sigma * sT) * (Dd - sT)) sigma := by
    have h := (hasDerivAt_normCdf
      ((Real.log (S / K) + (r + 0.5 * sigma ^ 2) * T) / (sigma * sT) -
        sigma * sT)).comp sigma hD2
    simpa [Function.comp] using h
  have hsum : HasDerivAt (fun x : ℝ =>
      S * normCdf ((Real.log (S / K) + (r + 0.5 * x ^ 2) * T) / (x * sT)) -
        K * Real.exp (-r * T) *
          normCdf ((Real.log (S / K) + (r + 0.5 * x ^ 2) * T) / (x * sT) -
            x * sT))
      (S * (normPdf ((Real.log (S / K) + (r + 0.5 * sigma ^ 2) * T) /
          (sigma * sT)) * Dd) -
        K * Real.exp (-r * T) *
          (normPdf ((Real.log (S / K) + (r + 0.5 * sigma ^ 2) * T) /
            (sigma * sT) - sigma * sT) * (Dd - sT))) sigma :=
    (hC1.const_mul S).sub (hC2.const_mul (K * Real.exp (-r * T)))
  have hkey := bs_pdf_identity r hS hK hT hsig
  rw [← hsTdef] at hkey
  have heq : S * (normPdf ((Real.log (S / K) + (r + 0.5 * sigma ^ 2) * T) /
        (sigma * sT)) * Dd) -
      K * Real.exp (-r * T) *
        (normPdf ((Real.log (S / K) + (r + 0.5 * sigma ^ 2) * T) /
          (sigma * sT) - sigma * sT) * (Dd - sT)) =
      S * normPdf ((Real.log (S / K) + (r + 0.5 * sigma ^ 2) * T) /
        (sigma * sT)) * sT := by
    linear_combination (sT - Dd) * hkey
  rw [heq] at hsum
  exact hsum

lemma priceOf_call_formula {S K T r : ℝ} (hS : 0 < S) (hK : 0 < K)
    (hT : 0 < T) {sigma : ℝ} (hsig : 0 < sigma) :
    priceOf S K T r sigma "call" =
      S * normCdf ((Real.log (S / K) + (r + 0.5 * sigma ^ 2) * T) /
          (sigma * Real.sqrt T)) -
        K * Real.exp (-r * T) *
          normCdf ((Real.log (S / K) + (r + 0.5 * sigma ^ 2) * T) /
              (sigma * Real.sqrt T) - sigma * Real.sqrt T) := by
  rw [priceOf, black_scholes_call hS hK hT hsig]
  simp only [Option.map_some', Option.getD_some]

lemma priceOf_call_lt_of_vol_lt {S K T : ℝ} (r : ℝ) (hS : 0 < S) (hK : 0 < K)
    (hT : 0 < T) {sigma1 sigma2 : ℝ} (h1 : 0 < sigma1) (h12 : sigma1 < sigma2) :
    priceOf S K T r sigma1 "call" < priceOf S K T r sigma2 "call" := by
  have h2 : 0 < sigma2 := h1.trans h12
  have hmono : StrictMonoOn (fun x : ℝ =>
      S * normCdf ((Real.log (S / K) + (r + 0.5 * x ^ 2) * T) /
          (x * Real.sqrt T)) -
        K * Real.exp (-r * T) *
          normCdf ((Real.log (S / K) + (r + 0.5 * x ^ 2) * T) /
              (x * Real.sqrt T) - x * Real.sqrt T)) (Ioi 0) := by
    refine @strictMonoOn_of_hasDerivWithinAt_pos (Ioi 0) (convex_Ioi 0) _
      (fun x => S * normPdf ((Real.log (S / K) + (r + 0.5 * x ^ 2) * T) /
          (x * Real.sqrt T)) * Real.sqrt T) ?_ ?_ ?_
    · intro x hx
      exact (callPrice_hasDerivAt hS hK hT hx).continuousAt.continuousWithinAt
    · intro x hx
      rw [interior_Ioi] at hx
      exact (callPrice_hasDerivAt hS hK hT hx).hasDerivWithinAt
    · intro x hx
      exact mul_pos (mul_pos hS (normPdf_pos _)) (Real.sqrt_pos.mpr hT)
  have h := hmono (mem_Ioi.mpr h1) (mem_Ioi.mpr h2) h12
  simp only [] at h
  rw [priceOf_call_formula hS hK hT h1, priceOf_call_formula hS hK hT h2]
  exact h

lemma priceOf_call_sub_put {S K T sigma : ℝ} (r : ℝ)
    (hS : 0 < S) (hK : 0 < K) (hT : 0 < T) (hsig : 0 < sigma) :
    priceOf S K T r sigma "call" - priceOf S K T r sigma "put" =
      S - K * Real.exp (-(r * T)) := by
  have hexp : Real.exp (-r * T) = Real.exp (-(r * T)) := by ring_nf
  rw [priceOf, priceOf, black_scholes_call hS hK hT hsig,
    black_scholes_put hS hK hT hsig]
  simp only [Option.map_some', Option.getD_some]
  rw [normCdf_neg, normCdf_neg, hexp]
  ring

lemma priceOf_put_formula {S K T sigma : ℝ} (r : ℝ)
    (hS : 0 < S) (hK : 0 < K) (hT : 0 < T) (hsig : 0 < sigma) :
    priceOf S K T r sigma "put" =
      priceOf S K T r sigma "call" - (S - K * Real.exp (-(r * T))) := by
  have h := priceOf_call_sub_put r hS hK hT hsig
  linarith

/-- C7: with `S, K, T` positive, `r` arbitrary and the style fixed, the
option price returned by the price operation is strictly increasing in the
volatility, for calls and for puts. -/
theorem price_strictMono_in_vol (S K T r sigma1 sigma2 : ℝ)
    (option_type : String) (hS : 0 < S) (hK : 0 < K) (hT : 0 < T)
    (hot : option_type = "call" ∨ option_type = "put")
    (h1 : 0 < sigma1) (h12 : sigma1 < sigma2) :
    priceOf S K T r sigma1 option_type <
      priceOf S K T r sigma2 option_type := by
  have h2 : 0 < sigma2 := h1.trans h12
  have hcall := priceOf_call_lt_of_vol_lt r hS hK hT h1 h12
  rcases hot with h | h <;> subst h
  · exact hcall
  · rw [priceOf_put_formula r hS hK hT h1, priceOf_put_formula r hS hK hT h2]
    linarith

/-- C7 witness at `S = K = 100`, `T = 1`, `r = 1/20`,
`σ1 = 1/10 < σ2 = 1/5`, style `"call"`. -/
theorem price_strictMono_in_vol_witness :
    (0:ℝ) < 100 ∧ (("call":String) = "call" ∨ ("call":String) = "put") ∧
      (0:ℝ) < 1/10 ∧ (1/10:ℝ) < 1/5 ∧
      priceOf 100 100 1 (1/20) (1/10) "call" <
        priceOf 100 100 1 (1/20) (1/5) "call" :=
  ⟨by norm_num, Or.inl rfl, by norm_num, by norm_num,
    price_strictMono_in_vol 100 100 1 (1/20) (1/10) (1/5) "call"
      (by norm_num) (by norm_num) (by norm_num) (Or.inl rfl) (by norm_num)
      (by norm_num)⟩

/-- C6: put-call parity — for identical valid `(S, K, T, r, σ)`, the call
price minus the put price equals `S − K·e^(−rT)` within `1e-6` (in fact the
difference is exactly zero in the real-number model). -/
theorem put_call_parity (S K T r sigma : ℝ)
    (hS : 0 < S) (hK : 0 < K) (hT : 0 < T) (hsig : 0 < sigma) :
    |priceOf S K T r sigma "call" - priceOf S K T r sigma "put" -
        (S - K * Real.exp (-(r * T)))| < 1e-6 := by
  rw [show priceOf S K T r sigma "call" - priceOf S K T r sigma "put" -
        (S - K * Real.exp (-(r * T))) =
      priceOf S K T r sigma "call" - priceOf S K T r sigma "put" -
        (S - K * Real.exp (-(r * T))) from rfl]
  rw [priceOf_call_sub_put r hS hK hT hsig]
  simp only [sub_self, abs_zero]
  norm_num

/-- C6 witness at `S = K = 100`, `T = 1`, `r = 1/20`, `σ = 1/5`. -/
theorem put_call_parity_witness :
    (0:ℝ) < 100 ∧
      |priceOf 100 100 1 (1/20) (1/5) "call" -
          priceOf 100 100 1 (1/20) (1/5) "put" -
          (100 - 100 * Real.exp (-((1/20:ℝ) * 1)))| < 1e-6 :=
  ⟨by norm_num,
    put_call_parity 100 100 1 (1/20) (1/5) (by norm_num) (by norm_num)
      (by norm_num) (by norm_num)⟩

/-- C4 witness at `S = K = 100`, `T = 1`, `r = 1/20`, `σ = 1/5`. -/
theorem greeks_closed_form_witness :
    (0:ℝ) < 100 ∧
    ((black_scholes 100 100 1 (1/20) (1/5) "call").map fun res =>
        (res.gamma, res.vega, res.theta, res.rho)) =
      some (normPdf ((Real.log ((100:ℝ) / 100) + (1/20 + (1/5:ℝ) ^ 2 / 2) * 1) /
              (1/5 * Real.sqrt 1)) / (100 * (1/5) * Real.sqrt 1),
        100 * normPdf ((Real.log ((100:ℝ) / 100) + (1/20 + (1/5:ℝ) ^ 2 / 2) * 1) /
            (1/5 * Real.sqrt 1)) * Real.sqrt 1 / 100,
        (-(100 * normPdf ((Real.log ((100:ℝ) / 100) + (1/20 + (1/5:ℝ) ^ 2 / 2) * 1) /
              (1/5 * Real.sqrt 1)) * (1/5) / (2 * Real.sqrt 1)) -
            1/20 * 100 * Real.exp (-((1/20:ℝ) * 1)) *
              normCdf ((Real.log ((100:ℝ) / 100) + (1/20 + (1/5:ℝ) ^ 2 / 2) * 1) /
                  (1/5 * Real.sqrt 1) - 1/5 * Real.sqrt 1)) / 365,
        100 * 1 * Real.exp (-((1/20:ℝ) * 1)) *
            normCdf ((Real.log ((100:ℝ) / 100) + (1/20 + (1/5:ℝ) ^ 2 / 2) * 1) /
                (1/5 * Real.sqrt 1) - 1/5 * Real.sqrt 1) / 100) :=
  ⟨by norm_num,
    (greeks_closed_form 100 100 1 (1/20) (1/5) (by norm_num) (by norm_num)
      (by norm_num) (by norm_num)).1⟩

end
